import Mathlib

/-!
Verification of the static block-memory planning pass.

The planning pass itself (`StaticPlanBlockMemory`) is a compiler transform over
a tensor-program IR.  The repository holds its test suite
(`tests/python/relax/test_transform_static_plan_block_memory.py`); the pass is
embedded here from the design specification, with the points the specification
leaves open pinned down by the expected outputs recorded in that test suite.

Data model: a function is an ordered list of bindings plus a return variable.
A binding associates a variable (a natural number) with a value: an allocation,
a kernel call with explicit input/output buffer arguments, a trivial copy, a
tuple build/project, a reshape view, a branch, an unrecognized (opaque) call,
or one of the four forms the rewriter itself emits (pool creation, offsetted
materialization, tensor release, pool release).
-/

/-- A shape dimension: a compile-time constant or a symbolic variable. -/
inductive Dim where
  | const (n : Nat)
  | sym (s : Nat)
deriving DecidableEq, Repr

def Dim.isConst : Dim → Bool
  | .const _ => true
  | .sym _ => false

def Dim.val : Dim → Nat
  | .const n => n
  | .sym _ => 0

/-- Element type of a tensor.  Models the dtype strings of the IR
("float32", "int32", "bool") as an enumeration. -/
inductive DType where
  | float32
  | int32
  | bool
deriving DecidableEq, Repr

/-- Bytes per element of each element type. -/
def dtBytes : DType → Nat
  | .float32 => 4
  | .int32 => 4
  | .bool => 1

/-- Byte size of an allocation: product of the (constant) dimensions times the
element width.  Only meaningful when every dimension is a constant. -/
def bytesOf (shape : List Dim) (dt : DType) : Nat :=
  (shape.foldl (fun a d => a * d.val) 1) * dtBytes dt

/-- The storage class of a token: element type, device, memory scope. -/
structure Klass where
  dtype : DType
  dev : Nat
  scope : Nat
deriving DecidableEq, Repr

/-- A binding's right-hand side.  The first eight constructors form the input
language; the last four are the forms the rewriter emits. -/
inductive BValue where
  | alloc (shape : List Dim) (dtype : DType) (dev : Nat) (scope : Nat)
  | kernelCall (kernel : Nat) (ins : List Nat) (outs : List Nat)
  | copy (src : Nat)
  | reshape (src : Nat) (shape : List Dim)
  | tupleBuild (fields : List Nat)
  | tupleProject (tup : Nat) (idx : Nat)
  | branch (cond : Nat)
  | opaqueCall (args : List Nat)
  | allocStorage (size : Nat) (dtype : DType) (dev : Nat) (scope : Nat)
  | allocTensor (storage : Nat) (offset : Nat) (shape : List Dim) (dtype : DType)
  | killTensor (tensor : Nat)
  | killStorage (storage : Nat)
deriving DecidableEq, Repr

/-- A function: parameters, ordered body bindings, return variable. -/
structure Func where
  params : List Nat
  body : List (Nat × BValue)
  ret : Nat
deriving DecidableEq, Repr

/-!
Aliasing values.  The identity of a variable is the set of tracked allocations
it can denote, indexed by tuple access paths: an entry `(path, a)` says that
projecting along `path` reaches the tensor produced by the allocation at body
position `a`.  A plain tracked tensor is `[([], a)]`; an untracked tensor
(parameter, kernel result) is `[]`.
-/

def AVal := List (List Nat × Nat)

def AMap := List (Nat × AVal)

def lookA (A : AMap) (v : Nat) : AVal :=
  match A.find? (fun e => e.1 == v) with
  | some e => e.2
  | none => []

def leavesA (x : AVal) : List Nat := x.map (·.2)

def tupleA (fs : List AVal) : AVal :=
  (fs.enum.map (fun p => p.2.map (fun e => (p.1 :: e.1, e.2)))).flatten

def projA (x : AVal) (i : Nat) : AVal :=
  x.filterMap (fun e =>
    match e.1 with
    | j :: rest => if j = i then some (rest, e.2) else none
    | [] => none)

def isTrackedTensor (x : AVal) : Bool :=
  match x with
  | [([], _)] => true
  | _ => false

/-- Modelled from the spec: the alias value of one binding, following copy and
tuple build/project edges transitively ("tensor identity"); `p` is the
binding's position, used as the identity of an allocation. -/
def avalOfB (A : AMap) (p : Nat) : BValue → AVal
  | .alloc _ _ _ _ => [([], p)]
  | .copy s => lookA A s
  | .reshape s _ => lookA A s
  | .tupleBuild fs => tupleA (fs.map (lookA A))
  | .tupleProject t i => projA (lookA A t) i
  | _ => []

/-- Modelled from the spec: the tracked identities a binding reads, used by the
liveness analyzer (kernel call arguments, tuple-build fields, reshape source). -/
def readsAt (A : AMap) : BValue → List Nat
  | .kernelCall _ ins outs => ((ins ++ outs).map (fun v => leavesA (lookA A v))).flatten
  | .tupleBuild fs => (fs.map (fun v => leavesA (lookA A v))).flatten
  | .reshape s _ => leavesA (lookA A s)
  | _ => []

def buildA (p : Nat) (A : AMap) : List (Nat × BValue) → AMap
  | [] => A
  | (v, bv) :: rest => buildA (p + 1) ((v, avalOfB A p bv) :: A) rest

def amapOf (f : Func) : AMap := buildA 0 [] f.body

/-!
Eligibility gate.  Modelled from the spec: a function is plannable only if every
binding is a recognized form — allocation with all-constant shape, kernel call,
copy, tuple build/project — plus (pinned by `test_basic` vs `test_reshape_param`)
a reshape whose source resolves to a tracked allocation.  Branches, opaque
calls, symbolic-shape allocations, reshapes of untracked tensors, and the memory
instructions the pass itself emits all disqualify the whole function.
-/

def okB (A : AMap) : BValue → Bool
  | .alloc shape _ _ _ => shape.all Dim.isConst
  | .kernelCall _ _ _ => true
  | .copy _ => true
  | .reshape s _ => isTrackedTensor (lookA A s)
  | .tupleBuild _ => true
  | .tupleProject _ _ => true
  | _ => false

def gateGo (p : Nat) (A : AMap) : List (Nat × BValue) → Bool
  | [] => true
  | (v, bv) :: rest => okB A bv && gateGo (p + 1) ((v, avalOfB A p bv) :: A) rest

/-- Modelled from the spec: the eligibility gate's whole-function verdict. -/
def plannable (f : Func) : Bool := gateGo 0 [] f.body

/-- The disqualifying constructs named by the spec: a branch, an unrecognized
call, or an allocation with a symbolic dimension. -/
def disqB : BValue → Bool
  | .branch _ => true
  | .opaqueCall _ => true
  | .alloc shape _ _ _ => !shape.all Dim.isConst
  | _ => false

/-- Constructs the gate rejects under every alias map. -/
def hardBad : BValue → Bool
  | .branch _ => true
  | .opaqueCall _ => true
  | .alloc shape _ _ _ => !shape.all Dim.isConst
  | .allocStorage _ _ _ _ => true
  | .allocTensor _ _ _ _ => true
  | .killTensor _ => true
  | .killStorage _ => true
  | _ => false

/-!
Liveness analyzer.  Modelled from the spec: one allocation record per tracked
allocation, carrying its byte size, storage class, definition position and
last-use position (the greatest position at which its identity class is read).
Allocations whose identity reaches the return value are excluded from planning
(pinned by `test_basic`, where the return-aliasing allocation is left as the
original generic allocation).
-/

structure Rec where
  pos : Nat
  v : Nat
  size : Nat
  klass : Klass
  lastUse : Nat
deriving DecidableEq, Repr

def luGo (A : AMap) (a : Nat) : Nat → Nat → List (Nat × BValue) → Nat
  | _, acc, [] => acc
  | p, acc, (_, bv) :: rest =>
      luGo A a (p + 1) (if (readsAt A bv).contains a then max acc p else acc) rest

/-- Modelled from the spec: last-use position of the identity defined at
position `a`, starting from its own definition position. -/
def lastUseOf (A : AMap) (fullbody : List (Nat × BValue)) (a : Nat) : Nat :=
  luGo A a 0 a fullbody

def exclSet (f : Func) : List Nat := leavesA (lookA (amapOf f) f.ret)

/-- The allocation record (if any) contributed by a single binding. -/
def recHead (A : AMap) (excl : List Nat) (fullbody : List (Nat × BValue))
    (p v : Nat) : BValue → List Rec
  | .alloc shape dt dev sc =>
      if shape.all Dim.isConst && !excl.contains p then
        [⟨p, v, bytesOf shape dt, ⟨dt, dev, sc⟩, lastUseOf A fullbody p⟩]
      else []
  | _ => []

def recsGo (A : AMap) (excl : List Nat) (fullbody : List (Nat × BValue)) :
    Nat → List (Nat × BValue) → List Rec
  | _, [] => []
  | p, (v, bv) :: rest =>
      recHead A excl fullbody p v bv ++ recsGo A excl fullbody (p + 1) rest

/-- Modelled from the spec: the allocation records of a function, in
definition order. -/
def recsOf (f : Func) : List Rec :=
  recsGo (amapOf f) (exclSet f) f.body 0 f.body

/-!
Token allocator.  Modelled from the spec: a greedy two-phase simulation in
program order; per storage class, freed tokens are returned to a FIFO free
queue (tie-break pinned by `test_nested_tuple`) and reused when a class-matching
one is available, otherwise a fresh token is created; each token's capacity is
the running maximum of its tenants' byte sizes.
-/

structure Tok where
  klass : Klass
  cap : Nat
  cur : Rec
  prev : List Rec
deriving DecidableEq, Repr

structure SimSt where
  toks : List Tok
  freeQ : List Nat
  asg : List (Nat × Nat)
deriving DecidableEq, Repr

def dfltRec : Rec := ⟨0, 0, 0, ⟨.float32, 0, 0⟩, 0⟩

def dfltTok : Tok := ⟨⟨.float32, 0, 0⟩, 0, dfltRec, []⟩

def tokAt (st : SimSt) (i : Nat) : Tok := st.toks[i]?.getD dfltTok

/-- The free queue after returning every token whose current tenant's last use
is behind position `p`: tokens freed earlier stay in front (FIFO), newly freed
ones are appended in creation order. -/
def sweepQ (st : SimSt) (p : Nat) : List Nat :=
  st.freeQ ++ (List.range st.toks.length).filter
    (fun i => !st.freeQ.contains i && decide ((tokAt st i).cur.lastUse < p))

/-- The first free token of the matching storage class, if any. -/
def pickTok (st : SimSt) (r : Rec) : Option Nat :=
  (sweepQ st r.pos).find? (fun i => decide ((tokAt st i).klass = r.klass))

def step (st : SimSt) (r : Rec) : SimSt :=
  match pickTok st r with
  | some i =>
      { toks := st.toks.set i ⟨(tokAt st i).klass, max (tokAt st i).cap r.size, r,
          (tokAt st i).cur :: (tokAt st i).prev⟩,
        freeQ := (sweepQ st r.pos).erase i,
        asg := st.asg ++ [(r.pos, i)] }
  | none =>
      { toks := st.toks ++ [⟨r.klass, r.size, r, []⟩],
        freeQ := sweepQ st r.pos,
        asg := st.asg ++ [(r.pos, st.toks.length)] }

def sim0 : SimSt := ⟨[], [], []⟩

/-- Modelled from the spec: the token allocator's simulation over the
allocation records in definition order. -/
def simulate (recs : List Rec) : SimSt := recs.foldl step sim0

def lookAsg (asg : List (Nat × Nat)) (p : Nat) : Option Nat :=
  (asg.find? (fun e => e.1 == p)).map (·.2)

def tenantsOf (tk : Tok) : List Rec := tk.cur :: tk.prev

def maxSize (l : List Rec) : Nat := l.foldr (fun r m => max r.size m) 0

def firstTenantPos (tk : Tok) : Nat :=
  ((tenantsOf tk).getLast?.getD dfltRec).pos

/-!
Rewriter.  Modelled from the spec: pool creation immediately before the first
tenant's materialization, each planned allocation replaced by a materialization
at offset 0 of its token, a tensor-release marker immediately after an
identity's last use (for tensor objects — allocations and reshape views — whose
identity was planned and actually read; a never-read allocation gets no
tensor-release marker, pinned by `test_zero_reference`), one pool-release
marker per token at the end of the function, and everything else copied
through unchanged.  Fresh variables: `100 + t` for the storage of token `t`,
`200 + q` for the release marker of the object at position `q`, `300 + t` for
the release marker of token `t`.
-/

def poolBindsAt (sim : SimSt) (p : Nat) : List (Nat × BValue) :=
  (List.range sim.toks.length).filterMap (fun t =>
    if firstTenantPos (tokAt sim t) = p then
      some (100 + t, BValue.allocStorage (tokAt sim t).cap (tokAt sim t).klass.dtype
        (tokAt sim t).klass.dev (tokAt sim t).klass.scope)
    else none)

def transformB (sim : SimSt) (p v : Nat) (bv : BValue) : Nat × BValue :=
  match bv, lookAsg sim.asg p with
  | .alloc shape dt _ _, some t => (v, .allocTensor (100 + t) 0 shape dt)
  | _, _ => (v, bv)

/-- The tracked-allocation identity of a tensor object (an allocation or a
reshape view) bound at position `q`. -/
def identOf (A : AMap) (q : Nat) : BValue → Option Nat
  | .alloc _ _ _ _ => some q
  | .reshape s _ =>
      (match lookA A s with
       | [([], a)] => some a
       | _ => none)
  | _ => none

def hasRead (A : AMap) (body : List (Nat × BValue)) (a : Nat) : Bool :=
  body.any (fun b => (readsAt A b.2).contains a)

def killsGo (A : AMap) (sim : SimSt) (fullbody : List (Nat × BValue)) (p : Nat) :
    Nat → List (Nat × BValue) → List (Nat × BValue)
  | _, [] => []
  | q, (o, bv) :: rest =>
      (match identOf A q bv with
       | some a =>
           if (lookAsg sim.asg a).isSome && (lastUseOf A fullbody a == p)
              && hasRead A fullbody a then
             [(200 + q, BValue.killTensor o)]
           else []
       | none => []) ++ killsGo A sim fullbody p (q + 1) rest

def killsAt (A : AMap) (sim : SimSt) (fullbody : List (Nat × BValue)) (p : Nat) :
    List (Nat × BValue) :=
  killsGo A sim fullbody p 0 fullbody

def rewriteGo (A : AMap) (sim : SimSt) (fullbody : List (Nat × BValue)) :
    Nat → List (Nat × BValue) → List (Nat × BValue)
  | _, [] => []
  | p, (v, bv) :: rest =>
      poolBindsAt sim p ++
        (transformB sim p v bv :: (killsAt A sim fullbody p ++
          rewriteGo A sim fullbody (p + 1) rest))

def killStorSeg (sim : SimSt) : List (Nat × BValue) :=
  (List.range sim.toks.length).map (fun t => (300 + t, BValue.killStorage (100 + t)))

/-- Modelled from the spec: the rewriter, invoked only on plannable functions. -/
def rewriteF (f : Func) : Func :=
  let A := amapOf f
  let sim := simulate (recsOf f)
  ⟨f.params, rewriteGo A sim f.body 0 f.body ++ killStorSeg sim, f.ret⟩

/-- Modelled from the spec: the whole pass on one function — plan it if the
eligibility gate accepts it, otherwise return it unchanged. -/
def planFunc (f : Func) : Func :=
  if plannable f then rewriteF f else f

/-- Modelled from the spec: the pass over a module, each function planned
independently. -/
def planModule (m : List Func) : List Func := m.map planFunc

/-!
Concrete programs from the test suite, encoded with numeric variables.
-/

/-- `main` of `test_basic`: five sequential allocations of 32, 32, 32, 40, 40
bytes (float32), each consumed once by the next kernel call, with a reshape
view of the first allocation and the last allocation aliasing the return. -/
def basicMain : Func :=
  ⟨[0],
   [(1, .alloc [.const 2, .const 4] .float32 0 0),
    (2, .kernelCall 0 [0] [1]),
    (3, .copy 1),
    (4, .reshape 3 [.const 8]),
    (5, .alloc [.const 8] .float32 0 0),
    (6, .kernelCall 1 [4] [5]),
    (7, .copy 5),
    (8, .alloc [.const 8] .float32 0 0),
    (9, .kernelCall 2 [7, 99] [8]),
    (10, .copy 8),
    (11, .alloc [.const 10] .float32 0 0),
    (12, .kernelCall 3 [10] [11]),
    (13, .copy 11),
    (14, .alloc [.const 10] .float32 0 0),
    (15, .kernelCall 4 [13] [14]),
    (16, .copy 14)],
   16⟩

/-- `Expected.main` of `test_basic`: the planned form of `basicMain`. -/
def basicExpected : Func :=
  ⟨[0],
   [(100, .allocStorage 32 .float32 0 0),
    (1, .allocTensor 100 0 [.const 2, .const 4] .float32),
    (2, .kernelCall 0 [0] [1]),
    (3, .copy 1),
    (4, .reshape 3 [.const 8]),
    (101, .allocStorage 40 .float32 0 0),
    (5, .allocTensor 101 0 [.const 8] .float32),
    (6, .kernelCall 1 [4] [5]),
    (200, .killTensor 1),
    (203, .killTensor 4),
    (7, .copy 5),
    (8, .allocTensor 100 0 [.const 8] .float32),
    (9, .kernelCall 2 [7, 99] [8]),
    (204, .killTensor 5),
    (10, .copy 8),
    (11, .allocTensor 101 0 [.const 10] .float32),
    (12, .kernelCall 3 [10] [11]),
    (207, .killTensor 8),
    (13, .copy 11),
    (14, .alloc [.const 10] .float32 0 0),
    (15, .kernelCall 4 [13] [14]),
    (210, .killTensor 11),
    (16, .copy 14),
    (300, .killStorage 100),
    (301, .killStorage 101)],
   16⟩

/-- `main` of `test_zero_reference`: one allocation that is never read. -/
def zeroRefMain : Func :=
  ⟨[0], [(1, .alloc [.const 2, .const 3] .float32 0 0)], 0⟩

/-- The planned form of `zeroRefMain`: pool creation, materialization at
offset 0, pool release — and no tensor-release marker. -/
def zeroRefExpected : Func :=
  ⟨[0],
   [(100, .allocStorage 24 .float32 0 0),
    (1, .allocTensor 100 0 [.const 2, .const 3] .float32),
    (300, .killStorage 100)],
   0⟩

/-- `main` of `test_reshape_param`: reshapes applied directly to the two
function parameters feeding a kernel call. -/
def reshapeParamMain : Func :=
  ⟨[0, 1],
   [(2, .reshape 0 [.const 2, .const 25, .const 2]),
    (3, .reshape 1 [.const 2, .const 25, .const 2]),
    (4, .alloc [.const 2, .const 25, .const 2] .float32 0 0),
    (5, .kernelCall 0 [2, 3] [4]),
    (6, .copy 4)],
   6⟩

/-- `main` of `test_same_dtype`: two non-overlapping float32 allocations. -/
def sameDtypeMain : Func :=
  ⟨[0, 1],
   [(2, .alloc [.const 2, .const 3] .float32 0 0),
    (3, .kernelCall 0 [0, 0] [2]),
    (4, .copy 2),
    (5, .alloc [.const 2, .const 3] .float32 0 0),
    (6, .kernelCall 0 [1, 1] [5]),
    (7, .copy 5)],
   0⟩

/-- `main` of `test_different_dtype`: two equal-size allocations of different
element types. -/
def diffDtypeMain : Func :=
  ⟨[0, 1],
   [(2, .alloc [.const 2, .const 3] .float32 0 0),
    (3, .kernelCall 0 [0, 0] [2]),
    (4, .copy 2),
    (5, .alloc [.const 2, .const 3] .int32 0 0),
    (6, .kernelCall 1 [1, 1] [5]),
    (7, .copy 5)],
   0⟩

/-- A function whose body contains a branch binding. -/
def branchMain : Func :=
  ⟨[0], [(1, .branch 0)], 0⟩

def isKTB : BValue → Bool
  | .killTensor _ => true
  | _ => false

def isKSB : BValue → Bool
  | .killStorage _ => true
  | _ => false

def isASB : BValue → Bool
  | .allocStorage _ _ _ _ => true
  | _ => false

def isATB : BValue → Bool
  | .allocTensor _ _ _ _ => true
  | _ => false

/-!
Eligibility-gate lemmas: a construct the gate rejects under every alias map
forces the whole-function verdict to `false`, and a positive verdict certifies
that no such construct occurs in the body.
-/

lemma okB_eq_false_of_hardBad (A : AMap) (bv : BValue) (h : hardBad bv = true) :
    okB A bv = false := by
  cases bv <;> simp_all [hardBad, okB]

lemma disqB_hardBad (bv : BValue) (h : disqB bv = true) : hardBad bv = true := by
  cases bv <;> simp_all [disqB, hardBad]

lemma gateGo_eq_false_of_mem (body : List (Nat × BValue)) :
    ∀ (p : Nat) (A : AMap) (b : Nat × BValue), b ∈ body → hardBad b.2 = true →
      gateGo p A body = false := by
  induction body with
  | nil => intro p A b hb; simp at hb
  | cons hd tl ih =>
      intro p A b hb hbad
      rcases List.mem_cons.1 hb with h | h
      · subst h
        obtain ⟨v, bv⟩ := b
        simp [gateGo, okB_eq_false_of_hardBad A bv hbad]
      · obtain ⟨v, bv⟩ := hd
        simp only [gateGo, Bool.and_eq_false_iff]
        exact Or.inr (ih _ _ b h hbad)

lemma hardBad_eq_false_of_gateGo (body : List (Nat × BValue)) :
    ∀ (p : Nat) (A : AMap) (b : Nat × BValue), gateGo p A body = true → b ∈ body →
      hardBad b.2 = false := by
  induction body with
  | nil => intro p A b _ hb; simp at hb
  | cons hd tl ih =>
      intro p A b hg hb
      obtain ⟨v, bv⟩ := hd
      simp only [gateGo, Bool.and_eq_true] at hg
      rcases List.mem_cons.1 hb with h | h
      · subst h
        by_contra hbad
        rw [okB_eq_false_of_hardBad A bv (by simpa using hbad)] at hg
        simp at hg
      · exact ih _ _ b hg.2 h

/-- C1: a function containing a branch binding, an allocation with a symbolic
shape dimension, or a call to anything other than a recognized kernel is
returned by the pass exactly equal to its input. -/
theorem gate_noop_on_disqualified (f : Func) (h : ∃ b ∈ f.body, disqB b.2 = true) :
    planFunc f = f := by
  obtain ⟨b, hb, hd⟩ := h
  have hf : plannable f = false :=
    gateGo_eq_false_of_mem f.body 0 [] b hb (disqB_hardBad b.2 hd)
  simp [planFunc, hf]

/-- Witness for C1 at a concrete function whose body is a single branch. -/
theorem gate_noop_on_disqualified_witness :
    (∃ b ∈ branchMain.body, disqB b.2 = true) ∧ planFunc branchMain = branchMain :=
  ⟨by decide, gate_noop_on_disqualified branchMain (by decide)⟩

/-- C3: on the straight-line function with five sequential single-consumer
allocations of byte sizes 32, 32, 32, 40, 40 and one dtype, the pass produces
exactly two storage tokens with final capacities 32 and 40 (reusing freed
tokens of the matching class), and the rewritten function releases every
intermediate tensor immediately after its sole use. -/
theorem basic_two_tokens_32_40 :
    (simulate (recsOf basicMain)).toks.length = 2
    ∧ (tokAt (simulate (recsOf basicMain)) 0).cap = 32
    ∧ (tokAt (simulate (recsOf basicMain)) 1).cap = 40
    ∧ planFunc basicMain = basicExpected := by decide

/-- C6 counterexample: the never-read allocation of `test_zero_reference` is
planned, yet the rewritten function contains no tensor-release marker at all,
contradicting the claim that one is inserted after its definition. -/
theorem zero_ref_no_tensor_release :
    plannable zeroRefMain = true
    ∧ (planFunc zeroRefMain).body.countP (fun b => isKTB b.2) = 0 := by decide

/-- C6 amended: an allocation that is never read is still planned — it receives
a pool-creation, a materialize-at-offset-0 binding and a pool-release marker —
but no tensor-release marker is emitted for it. -/
theorem zero_ref_planned_form : planFunc zeroRefMain = zeroRefExpected := by decide

/-- C8: a reshape applied directly to a function parameter feeding a kernel
call makes the eligibility gate reject the function, which is returned
unchanged, whereas the reshape of a tracked allocation inside `basicMain` does
not disqualify it from planning. -/
theorem reshape_gate_boundary :
    plannable reshapeParamMain = false
    ∧ planFunc reshapeParamMain = reshapeParamMain
    ∧ plannable basicMain = true := by decide

/-!
Well-formedness of the liveness analysis: allocation records appear in strictly
increasing definition order, and each record's last use is at or after its
definition.
-/

lemma luGo_le (A : AMap) (a : Nat) :
    ∀ (l : List (Nat × BValue)) (p acc : Nat), acc ≤ luGo A a p acc l := by
  intro l
  induction l with
  | nil => intro p acc; exact Nat.le_refl _
  | cons hd tl ih =>
      intro p acc
      obtain ⟨v, bv⟩ := hd
      simp only [luGo]
      refine Nat.le_trans ?_ (ih (p + 1) _)
      split
      · exact Nat.le_max_left _ _
      · exact Nat.le_refl _

lemma recHead_mem (A : AMap) (e : List Nat) (fb : List (Nat × BValue))
    (p v : Nat) (bv : BValue) (r : Rec) (h : r ∈ recHead A e fb p v bv) :
    r.pos = p ∧ r.pos ≤ r.lastUse := by
  cases bv with
  | alloc shape dt dev sc =>
      simp only [recHead] at h
      split at h
      · rcases List.mem_singleton.1 h with rfl
        exact ⟨rfl, luGo_le A p fb 0 p⟩
      · exact absurd h (List.not_mem_nil r)
  | kernelCall k ins outs => exact absurd h (List.not_mem_nil r)
  | copy s => exact absurd h (List.not_mem_nil r)
  | reshape s sh => exact absurd h (List.not_mem_nil r)
  | tupleBuild fs => exact absurd h (List.not_mem_nil r)
  | tupleProject t i => exact absurd h (List.not_mem_nil r)
  | branch c => exact absurd h (List.not_mem_nil r)
  | opaqueCall args => exact absurd h (List.not_mem_nil r)
  | allocStorage s dt dev sc => exact absurd h (List.not_mem_nil r)
  | allocTensor s o sh dt => exact absurd h (List.not_mem_nil r)
  | killTensor t => exact absurd h (List.not_mem_nil r)
  | killStorage s => exact absurd h (List.not_mem_nil r)

lemma recsGo_lb (A : AMap) (e : List Nat) (fb : List (Nat × BValue)) :
    ∀ (body : List (Nat × BValue)) (p : Nat) (r : Rec),
      r ∈ recsGo A e fb p body → p ≤ r.pos := by
  intro body
  induction body with
  | nil => intro p r h; exact absurd h (List.not_mem_nil r)
  | cons hd tl ih =>
      intro p r h
      obtain ⟨v, bv⟩ := hd
      rcases List.mem_append.1 h with h1 | h2
      · exact Nat.le_of_eq (recHead_mem A e fb p v bv r h1).1.symm
      · exact Nat.le_of_succ_le (ih (p + 1) r h2)

lemma recsGo_wf (A : AMap) (e : List Nat) (fb : List (Nat × BValue)) :
    ∀ (body : List (Nat × BValue)) (p : Nat) (r : Rec),
      r ∈ recsGo A e fb p body → r.pos ≤ r.lastUse := by
  intro body
  induction body with
  | nil => intro p r h; exact absurd h (List.not_mem_nil r)
  | cons hd tl ih =>
      intro p r h
      obtain ⟨v, bv⟩ := hd
      rcases List.mem_append.1 h with h1 | h2
      · exact (recHead_mem A e fb p v bv r h1).2
      · exact ih (p + 1) r h2

lemma recsGo_sorted (A : AMap) (e : List Nat) (fb : List (Nat × BValue)) :
    ∀ (body : List (Nat × BValue)) (p : Nat),
      (recsGo A e fb p body).Pairwise (fun a b => a.pos < b.pos) := by
  intro body
  induction body with
  | nil => intro p; exact List.Pairwise.nil
  | cons hd tl ih =>
      intro p
      obtain ⟨v, bv⟩ := hd
      refine List.pairwise_append.2 ⟨?_, ih (p + 1), ?_⟩
      · cases bv with
        | alloc shape dt dev sc =>
            simp only [recHead]
            split
            · exact List.pairwise_singleton _ _
            · exact List.Pairwise.nil
        | kernelCall k ins outs => exact List.Pairwise.nil
        | copy s => exact List.Pairwise.nil
        | reshape s sh => exact List.Pairwise.nil
        | tupleBuild fs => exact List.Pairwise.nil
        | tupleProject t i => exact List.Pairwise.nil
        | branch c => exact List.Pairwise.nil
        | opaqueCall args => exact List.Pairwise.nil
        | allocStorage s dt dev sc => exact List.Pairwise.nil
        | allocTensor s o sh dt => exact List.Pairwise.nil
        | killTensor t => exact List.Pairwise.nil
        | killStorage s => exact List.Pairwise.nil
      · intro a ha b hb
        rw [(recHead_mem A e fb p v bv a ha).1]
        exact Nat.lt_of_succ_le (recsGo_lb A e fb tl (p + 1) b hb)

lemma recsOf_sorted (f : Func) :
    (recsOf f).Pairwise (fun a b => a.pos < b.pos) :=
  recsGo_sorted (amapOf f) (exclSet f) f.body f.body 0

lemma recsOf_wf (f : Func) : ∀ r ∈ recsOf f, r.pos ≤ r.lastUse :=
  fun r hr => recsGo_wf (amapOf f) (exclSet f) f.body f.body 0 r hr

/-!
The token allocator's invariant: within every token, the tenant history (most
recent first) is chained — each earlier tenant's last use lies strictly before
the next tenant's definition — all tenants share the token's storage class, and
the token's capacity is exactly the maximum tenant byte size.
-/

def TokOK (tk : Tok) : Prop :=
  (tenantsOf tk).Pairwise (fun a b => b.lastUse < a.pos)
  ∧ (∀ r ∈ tenantsOf tk, r.pos ≤ r.lastUse)
  ∧ (∀ r ∈ tenantsOf tk, r.klass = tk.klass)
  ∧ tk.cap = maxSize (tenantsOf tk)

def SimInv (n : Nat) (st : SimSt) : Prop :=
  st.freeQ.Nodup
  ∧ (∀ i ∈ st.freeQ, i < st.toks.length ∧ (tokAt st i).cur.lastUse < n)
  ∧ (∀ tk ∈ st.toks, TokOK tk)

lemma tokAt_mem (st : SimSt) (i : Nat) (h : i < st.toks.length) :
    tokAt st i ∈ st.toks := by
  unfold tokAt
  rw [List.getElem?_eq_getElem h]
  exact List.getElem_mem h

lemma sweepQ_nodup (st : SimSt) (p : Nat) (hnd : st.freeQ.Nodup) :
    (sweepQ st p).Nodup := by
  unfold sweepQ
  refine List.Nodup.append hnd ((List.nodup_range _).filter _) ?_
  intro i hi hif
  have h2 := (List.mem_filter.1 hif).2
  rw [Bool.and_eq_true] at h2
  have h3 := h2.1
  simp at h3
  exact h3 hi

lemma sweepQ_mem (st : SimSt) (p : Nat)
    (hfq : ∀ i ∈ st.freeQ, i < st.toks.length ∧ (tokAt st i).cur.lastUse < p) :
    ∀ i ∈ sweepQ st p, i < st.toks.length ∧ (tokAt st i).cur.lastUse < p := by
  intro i hi
  unfold sweepQ at hi
  rcases List.mem_append.1 hi with h1 | h2
  · exact hfq i h1
  · have h3 := List.mem_filter.1 h2
    refine ⟨List.mem_range.1 h3.1, ?_⟩
    have h4 := h3.2
    rw [Bool.and_eq_true] at h4
    exact of_decide_eq_true h4.2

lemma step_inv (st : SimSt) (r : Rec) (n : Nat) (h : SimInv n st)
    (hn : n ≤ r.pos) (hr : r.pos ≤ r.lastUse) : SimInv (r.pos + 1) (step st r) := by
  obtain ⟨hnd, hfq, htk⟩ := h
  have hfq' : ∀ i ∈ st.freeQ, i < st.toks.length ∧ (tokAt st i).cur.lastUse < r.pos :=
    fun i hi => ⟨(hfq i hi).1, Nat.lt_of_lt_of_le (hfq i hi).2 hn⟩
  have hq := sweepQ_mem st r.pos hfq'
  have hqnd := sweepQ_nodup st r.pos hnd
  cases hfind : pickTok st r with
  | some i =>
      have hfind2 : (sweepQ st r.pos).find?
          (fun i => decide ((tokAt st i).klass = r.klass)) = some i := hfind
      have hiq : i ∈ sweepQ st r.pos := List.mem_of_find?_eq_some hfind2
      have hklass : (tokAt st i).klass = r.klass := by
        have h5 := List.find?_some hfind2
        simpa using h5
      obtain ⟨hilen, hiLU⟩ := hq i hiq
      have htokm : tokAt st i ∈ st.toks := tokAt_mem st i hilen
      obtain ⟨hpw, hle, hkl, hcap⟩ := htk _ htokm
      have hcur_mem : (tokAt st i).cur ∈ tenantsOf (tokAt st i) := List.mem_cons_self _ _
      have hprev_lt : ∀ x ∈ (tokAt st i).cur :: (tokAt st i).prev, x.lastUse < r.pos := by
        intro x hx
        rcases List.mem_cons.1 hx with h1 | h2
        · rw [h1]; exact hiLU
        · have h3 := (List.pairwise_cons.1 hpw).1 x h2
          exact Nat.lt_of_lt_of_le (Nat.lt_of_lt_of_le h3 (hle _ hcur_mem)) (Nat.le_of_lt hiLU)
      have hTokNew : TokOK ⟨(tokAt st i).klass, max (tokAt st i).cap r.size, r,
          (tokAt st i).cur :: (tokAt st i).prev⟩ := by
        refine ⟨?_, ?_, ?_, ?_⟩
        · exact List.pairwise_cons.2 ⟨hprev_lt, hpw⟩
        · intro x hx
          rcases List.mem_cons.1 hx with h1 | h2
          · rw [h1]; exact hr
          · exact hle x h2
        · intro x hx
          rcases List.mem_cons.1 hx with h1 | h2
          · rw [h1]; exact hklass.symm
          · exact hkl x h2
        · show max (tokAt st i).cap r.size = maxSize (r :: tenantsOf (tokAt st i))
          have : maxSize (r :: tenantsOf (tokAt st i))
              = max r.size (maxSize (tenantsOf (tokAt st i))) := rfl
          rw [this, ← hcap, Nat.max_comm]
      simp only [step, hfind]
      refine ⟨hqnd.erase i, ?_, ?_⟩
      · intro j hj
        obtain ⟨hne, hjq⟩ := (List.Nodup.mem_erase_iff hqnd).1 hj
        obtain ⟨hjlen, hjLU⟩ := hq j hjq
        constructor
        · simpa [List.length_set] using hjlen
        · unfold tokAt
          simp only [List.getElem?_set_ne (fun he => hne he.symm)]
          exact Nat.lt_succ_of_lt hjLU
      · intro tk htkm
        rcases List.mem_or_eq_of_mem_set htkm with h1 | h2
        · exact htk tk h1
        · rw [h2]; exact hTokNew
  | none =>
      simp only [step, hfind]
      refine ⟨hqnd, ?_, ?_⟩
      · intro j hj
        obtain ⟨hjlen, hjLU⟩ := hq j hj
        constructor
        · simpa [List.length_append] using Nat.lt_succ_of_lt hjlen
        · unfold tokAt
          simp only [List.getElem?_append_left hjlen]
          exact Nat.lt_succ_of_lt hjLU
      · intro tk htkm
        rcases List.mem_append.1 htkm with h1 | h2
        · exact htk tk h1
        · rw [List.mem_singleton.1 h2]
          refine ⟨List.pairwise_singleton _ _, ?_, ?_, ?_⟩
          · intro x hx; rw [List.mem_singleton.1 hx]; exact hr
          · intro x hx; rw [List.mem_singleton.1 hx]
          · show r.size = maxSize [r]
            show r.size = max r.size 0
            rw [Nat.max_zero]

lemma simInv_zero : SimInv 0 sim0 := by
  refine ⟨List.nodup_nil, ?_, ?_⟩
  · intro i hi; exact absurd hi (List.not_mem_nil i)
  · intro tk htk; exact absurd htk (List.not_mem_nil tk)

lemma foldl_step_inv :
    ∀ (recs : List Rec) (st : SimSt) (n : Nat),
      SimInv n st →
      recs.Pairwise (fun a b => a.pos < b.pos) →
      (∀ r ∈ recs, n ≤ r.pos ∧ r.pos ≤ r.lastUse) →
      ∀ tk ∈ (recs.foldl step st).toks, TokOK tk := by
  intro recs
  induction recs with
  | nil => intro st n h _ _ tk htk; exact h.2.2 tk htk
  | cons r rest ih =>
      intro st n h hp hb
      have hhead := hb r (List.mem_cons_self _ _)
      have h1 := step_inv st r n h hhead.1 hhead.2
      simp only [List.foldl_cons]
      refine ih (step st r) (r.pos + 1) h1 (List.pairwise_cons.1 hp).2 ?_
      intro r' hr'
      exact ⟨Nat.succ_le_of_lt ((List.pairwise_cons.1 hp).1 r' hr'),
        (hb r' (List.mem_cons_of_mem _ hr')).2⟩

lemma recsOf_tokOK (f : Func) : ∀ tk ∈ (simulate (recsOf f)).toks, TokOK tk := by
  refine foldl_step_inv (recsOf f) sim0 0 simInv_zero (recsOf_sorted f) ?_
  intro r hr
  exact ⟨Nat.zero_le _, recsOf_wf f r hr⟩

/-- C2: in a plannable function, any two tensor identities assigned to the
same storage token have non-intersecting [first-def, last-use] ranges. -/
theorem same_token_ranges_disjoint (f : Func) (h : plannable f = true) :
    ∀ tk ∈ (simulate (recsOf f)).toks, ∀ r1 ∈ tenantsOf tk, ∀ r2 ∈ tenantsOf tk,
      r1 ≠ r2 → r1.lastUse < r2.pos ∨ r2.lastUse < r1.pos := by
  intro tk htk r1 h1 r2 h2 hne
  obtain ⟨hpw, hle, _, _⟩ := recsOf_tokOK f tk htk
  have hsym : Symmetric (fun a b : Rec => a.lastUse < b.pos ∨ b.lastUse < a.pos) :=
    fun a b hab => hab.symm
  have hpw2 : (tenantsOf tk).Pairwise
      (fun a b => a.lastUse < b.pos ∨ b.lastUse < a.pos) :=
    hpw.imp (fun hab => Or.inr hab)
  exact List.Pairwise.forall hsym hpw2 h1 h2 hne

/-- Witness for C2 at the concrete `test_same_dtype` function, where both
allocations share one token. -/
theorem same_token_ranges_disjoint_witness :
    plannable sameDtypeMain = true
    ∧ (∀ tk ∈ (simulate (recsOf sameDtypeMain)).toks, ∀ r1 ∈ tenantsOf tk,
        ∀ r2 ∈ tenantsOf tk, r1 ≠ r2 → r1.lastUse < r2.pos ∨ r2.lastUse < r1.pos) :=
  ⟨by decide, same_token_ranges_disjoint sameDtypeMain (by decide)⟩

/-- C4: no storage token is ever assigned two tenants of differing element
type, device, or memory scope. -/
theorem token_class_purity (f : Func) (h : plannable f = true) :
    ∀ tk ∈ (simulate (recsOf f)).toks, ∀ r1 ∈ tenantsOf tk, ∀ r2 ∈ tenantsOf tk,
      r1.klass = r2.klass := by
  intro tk htk r1 h1 r2 h2
  obtain ⟨_, _, hkl, _⟩ := recsOf_tokOK f tk htk
  rw [hkl r1 h1, hkl r2 h2]

/-- Witness for C4 at the concrete `test_different_dtype` function, whose two
equal-size allocations of different dtypes land in two distinct tokens. -/
theorem token_class_purity_witness :
    plannable diffDtypeMain = true
    ∧ (simulate (recsOf diffDtypeMain)).toks.length = 2
    ∧ (∀ tk ∈ (simulate (recsOf diffDtypeMain)).toks, ∀ r1 ∈ tenantsOf tk,
        ∀ r2 ∈ tenantsOf tk, r1.klass = r2.klass) :=
  ⟨by decide, by decide, token_class_purity diffDtypeMain (by decide)⟩

/-!
Classification of the rewriter's output: every binding of a planned body is a
pool creation, a transformed input binding, a tensor release, or (in the final
segment) a pool release.
-/

lemma mem_le_maxSize : ∀ (l : List Rec), ∀ r ∈ l, r.size ≤ maxSize l := by
  intro l
  induction l with
  | nil => intro r hr; exact absurd hr (List.not_mem_nil r)
  | cons hd tl ih =>
      intro r hr
      rcases List.mem_cons.1 hr with h1 | h2
      · rw [h1]; exact Nat.le_max_left _ _
      · exact Nat.le_trans (ih r h2) (Nat.le_max_right _ _)

lemma mem_poolBindsAt (sim : SimSt) (p : Nat) (b : Nat × BValue)
    (h : b ∈ poolBindsAt sim p) :
    ∃ t, t < sim.toks.length ∧
      b = (100 + t, BValue.allocStorage (tokAt sim t).cap (tokAt sim t).klass.dtype
        (tokAt sim t).klass.dev (tokAt sim t).klass.scope) := by
  unfold poolBindsAt at h
  obtain ⟨t, ht, hval⟩ := List.mem_filterMap.1 h
  refine ⟨t, List.mem_range.1 ht, ?_⟩
  split at hval
  · exact (Option.some_inj.1 hval).symm
  · exact absurd hval (by simp)

lemma mem_killsGo (A : AMap) (sim : SimSt) (fb : List (Nat × BValue)) (p : Nat) :
    ∀ (l : List (Nat × BValue)) (q : Nat) (b : Nat × BValue),
      b ∈ killsGo A sim fb p q l → isKTB b.2 = true := by
  intro l
  induction l with
  | nil => intro q b h; exact absurd h (List.not_mem_nil b)
  | cons hd tl ih =>
      intro q b h
      obtain ⟨o, bv⟩ := hd
      simp only [killsGo] at h
      rcases List.mem_append.1 h with h1 | h2
      · cases hident : identOf A q bv with
        | none => rw [hident] at h1; exact absurd h1 (List.not_mem_nil b)
        | some a =>
            rw [hident] at h1
            have h2 : b ∈ (if ((lookAsg sim.asg a).isSome && (lastUseOf A fb a == p)
                && hasRead A fb a) = true then [(200 + q, BValue.killTensor o)]
                else ([] : List (Nat × BValue))) := h1
            by_cases hc : ((lookAsg sim.asg a).isSome && (lastUseOf A fb a == p)
                && hasRead A fb a) = true
            · rw [if_pos hc] at h2
              rw [List.mem_singleton.1 h2]
              rfl
            · rw [if_neg hc] at h2
              exact absurd h2 (List.not_mem_nil b)
      · exact ih (q + 1) b h2

lemma transformB_snd (sim : SimSt) (p v : Nat) (bv : BValue) :
    (transformB sim p v bv).2 = bv ∨ isATB (transformB sim p v bv).2 = true := by
  unfold transformB
  cases bv <;> cases lookAsg sim.asg p <;> simp [isATB]

lemma mem_rewriteGo (A : AMap) (sim : SimSt) (fb : List (Nat × BValue)) :
    ∀ (body : List (Nat × BValue)) (p : Nat) (b : Nat × BValue),
      b ∈ rewriteGo A sim fb p body →
      (∃ p', b ∈ poolBindsAt sim p')
      ∨ (∃ p' v bv, (v, bv) ∈ body ∧ b = transformB sim p' v bv)
      ∨ isKTB b.2 = true := by
  intro body
  induction body with
  | nil => intro p b h; exact absurd h (List.not_mem_nil b)
  | cons hd tl ih =>
      intro p b h
      obtain ⟨v, bv⟩ := hd
      simp only [rewriteGo] at h
      rcases List.mem_append.1 h with h1 | h2
      · exact Or.inl ⟨p, h1⟩
      · rcases List.mem_cons.1 h2 with h3 | h4
        · exact Or.inr (Or.inl ⟨p, v, bv, List.mem_cons_self _ _, h3⟩)
        · rcases List.mem_append.1 h4 with h5 | h6
          · exact Or.inr (Or.inr (mem_killsGo A sim fb p fb 0 b h5))
          · rcases ih (p + 1) b h6 with ha | hb | hc
            · exact Or.inl ha
            · obtain ⟨p', v', bv', hm, he⟩ := hb
              exact Or.inr (Or.inl ⟨p', v', bv', List.mem_cons_of_mem _ hm, he⟩)
            · exact Or.inr (Or.inr hc)

lemma mem_killStorSeg (sim : SimSt) (b : Nat × BValue) (h : b ∈ killStorSeg sim) :
    ∃ t, t < sim.toks.length ∧ b = (300 + t, BValue.killStorage (100 + t)) := by
  unfold killStorSeg at h
  obtain ⟨t, ht, he⟩ := List.mem_map.1 h
  exact ⟨t, List.mem_range.1 ht, he.symm⟩

lemma plannable_body_not_bad (f : Func) (h : plannable f = true) :
    ∀ b ∈ f.body, hardBad b.2 = false :=
  fun b hb => hardBad_eq_false_of_gateGo f.body 0 [] b h hb

lemma planFunc_body_eq (f : Func) (h : plannable f = true) :
    (planFunc f).body
      = rewriteGo (amapOf f) (simulate (recsOf f)) f.body 0 f.body
        ++ killStorSeg (simulate (recsOf f)) := by
  simp [planFunc, h, rewriteF]

/-- C5: in a plannable function, every token's final capacity is the maximum
byte size over all its tenants (so each tenant fits), and every emitted
pool-creation binding carries exactly its token's final coalesced capacity. -/
theorem token_capacity_coalesced (f : Func) (h : plannable f = true) :
    (∀ tk ∈ (simulate (recsOf f)).toks,
        tk.cap = maxSize (tenantsOf tk) ∧ ∀ r ∈ tenantsOf tk, r.size ≤ tk.cap)
    ∧ (∀ b ∈ (planFunc f).body, isASB b.2 = true →
        ∃ t, t < (simulate (recsOf f)).toks.length ∧
          b = (100 + t, BValue.allocStorage (tokAt (simulate (recsOf f)) t).cap
            (tokAt (simulate (recsOf f)) t).klass.dtype
            (tokAt (simulate (recsOf f)) t).klass.dev
            (tokAt (simulate (recsOf f)) t).klass.scope)) := by
  constructor
  · intro tk htk
    obtain ⟨_, _, _, hcap⟩ := recsOf_tokOK f tk htk
    refine ⟨hcap, ?_⟩
    intro r hr
    rw [hcap]
    exact mem_le_maxSize _ r hr
  · intro b hb hAS
    rw [planFunc_body_eq f h] at hb
    rcases List.mem_append.1 hb with h1 | h2
    · rcases mem_rewriteGo _ _ _ f.body 0 b h1 with ha | hbc | hc
      · obtain ⟨p', hp'⟩ := ha
        exact mem_poolBindsAt _ p' b hp'
      · obtain ⟨p', v', bv', hm, he⟩ := hbc
        rcases transformB_snd (simulate (recsOf f)) p' v' bv' with hs | hs
        · exfalso
          have hbad := plannable_body_not_bad f h (v', bv') hm
          rw [he] at hAS
          rw [hs] at hAS
          cases bv' <;> simp_all [isASB, hardBad]
        · exfalso
          rw [he] at hAS
          cases htb : (transformB (simulate (recsOf f)) p' v' bv').2 <;>
            simp_all [isASB, isATB]
      · exfalso
        cases htb : b.2 <;> simp_all [isKTB, isASB]
    · exfalso
      obtain ⟨t, _, he⟩ := mem_killStorSeg _ b h2
      rw [he] at hAS
      simp [isASB] at hAS

/-- Witness for C5 at the concrete `test_basic` function, where the second
token is first sized 32 and finally reported with capacity 40. -/
theorem token_capacity_coalesced_witness :
    plannable basicMain = true
    ∧ ((∀ tk ∈ (simulate (recsOf basicMain)).toks,
        tk.cap = maxSize (tenantsOf tk) ∧ ∀ r ∈ tenantsOf tk, r.size ≤ tk.cap)
      ∧ (∀ b ∈ (planFunc basicMain).body, isASB b.2 = true →
          ∃ t, t < (simulate (recsOf basicMain)).toks.length ∧
            b = (100 + t, BValue.allocStorage (tokAt (simulate (recsOf basicMain)) t).cap
              (tokAt (simulate (recsOf basicMain)) t).klass.dtype
              (tokAt (simulate (recsOf basicMain)) t).klass.dev
              (tokAt (simulate (recsOf basicMain)) t).klass.scope))) :=
  ⟨by decide, token_capacity_coalesced basicMain (by decide)⟩

lemma rewriteGo_no_killStorage (f : Func) (h : plannable f = true) :
    ∀ b ∈ rewriteGo (amapOf f) (simulate (recsOf f)) f.body 0 f.body,
      isKSB b.2 = false := by
  intro b hb
  rcases mem_rewriteGo _ _ _ f.body 0 b hb with ha | hbc | hc
  · obtain ⟨p', hp'⟩ := ha
    obtain ⟨t, _, he⟩ := mem_poolBindsAt _ p' b hp'
    rw [he]
    rfl
  · obtain ⟨p', v', bv', hm, he⟩ := hbc
    rcases transformB_snd (simulate (recsOf f)) p' v' bv' with hs | hs
    · have hbad := plannable_body_not_bad f h (v', bv') hm
      rw [he, hs]
      cases bv' <;> simp_all [isKSB, hardBad]
    · rw [he]
      cases htb : (transformB (simulate (recsOf f)) p' v' bv').2 <;>
        simp_all [isATB, isKSB]
  · cases htb : b.2 <;> simp_all [isKTB, isKSB]

lemma killStorSeg_shape (sim : SimSt) :
    ∀ b ∈ killStorSeg sim, isKSB b.2 = true ∧ isKTB b.2 = false := by
  intro b hb
  obtain ⟨t, _, he⟩ := mem_killStorSeg sim b hb
  rw [he]
  exact ⟨rfl, rfl⟩

lemma killStorSeg_nodup (sim : SimSt) : (killStorSeg sim).Nodup := by
  unfold killStorSeg
  refine List.Nodup.map ?_ (List.nodup_range _)
  intro t1 t2 he
  have h1 : 300 + t1 = 300 + t2 := congrArg Prod.fst he
  exact Nat.add_left_cancel h1


lemma getD_append_mem_left {α : Type} (l1 l2 : List α) {n : Nat}
    (h : n < l1.length) (d : α) : (l1 ++ l2).getD n d ∈ l1 := by
  rw [List.getD_eq_getElem?_getD, List.getElem?_append_left h,
    List.getElem?_eq_getElem h]
  exact List.getElem_mem h

lemma getD_append_mem_right {α : Type} {l1 l2 : List α} {n : Nat}
    (h1 : l1.length ≤ n) (h2 : n < l1.length + l2.length) (d : α) :
    (l1 ++ l2).getD n d ∈ l2 := by
  have h3 : n - l1.length < l2.length := by omega
  rw [List.getD_eq_getElem?_getD, List.getElem?_append_right h1,
    List.getElem?_eq_getElem h3]
  exact List.getElem_mem h3

lemma countP_eq_one_of_nodup_mem {α : Type} (p : α → Bool) :
    ∀ (l : List α), l.Nodup → ∀ a ∈ l, p a = true →
      (∀ b ∈ l, p b = true → b = a) → l.countP p = 1 := by
  intro l
  induction l with
  | nil => intro _ a ha; exact absurd ha (List.not_mem_nil a)
  | cons x xs ih =>
      intro hnd a ha hpa huniq
      rcases List.mem_cons.1 ha with h1 | h2
      · subst h1
        rw [List.countP_cons_of_pos _ _ hpa]
        have h0 : xs.countP p = 0 := by
          rw [List.countP_eq_zero]
          intro b hb hpb
          have hba := huniq b (List.mem_cons_of_mem _ hb) hpb
          subst hba
          exact (List.nodup_cons.1 hnd).1 hb
        rw [h0]
      · have hax : a ≠ x := by
          intro he
          subst he
          exact (List.nodup_cons.1 hnd).1 h2
        have hpx : ¬p x = true := by
          intro hpx
          exact hax (huniq x (List.mem_cons_self _ _) hpx).symm
        rw [List.countP_cons_of_neg _ _ hpx]
        exact ih (List.nodup_cons.1 hnd).2 a h2 hpa
          (fun b hb hpb => huniq b (List.mem_cons_of_mem _ hb) hpb)

/-- C7: in the rewritten form of a plannable function, every created storage
token has exactly one pool-release marker; all pool-release markers form the
final segment of the body (after every other binding, before the return), and
every tensor-release marker precedes every pool-release marker, in particular
those of the token's own tenants. -/
theorem storage_release_total (f : Func) (h : plannable f = true) :
    (∀ t < (simulate (recsOf f)).toks.length,
        (planFunc f).body.countP
          (fun b => decide (b = (300 + t, BValue.killStorage (100 + t)))) = 1)
    ∧ (∃ main, (planFunc f).body = main ++ killStorSeg (simulate (recsOf f))
        ∧ ∀ b ∈ main, isKSB b.2 = false)
    ∧ (∀ i j, i < (planFunc f).body.length → j < (planFunc f).body.length →
        isKTB ((planFunc f).body.getD i (0, BValue.copy 0)).2 = true →
        isKSB ((planFunc f).body.getD j (0, BValue.copy 0)).2 = true → i < j) := by
  have hsp := planFunc_body_eq f h
  have hnoks : ∀ b ∈ rewriteGo (amapOf f) (simulate (recsOf f)) f.body 0 f.body,
      isKSB b.2 = false := rewriteGo_no_killStorage f h
  refine ⟨?_, ⟨_, hsp, hnoks⟩, ?_⟩
  · intro t ht
    rw [hsp, List.countP_append]
    have h0 : (rewriteGo (amapOf f) (simulate (recsOf f)) f.body 0 f.body).countP
        (fun b => decide (b = (300 + t, BValue.killStorage (100 + t)))) = 0 := by
      rw [List.countP_eq_zero]
      intro b hb hpb
      have h5 := hnoks _ hb
      have h6 : b = (300 + t, BValue.killStorage (100 + t)) := of_decide_eq_true hpb
      rw [h6] at h5
      simp [isKSB] at h5
    have h1 : (killStorSeg (simulate (recsOf f))).countP
        (fun b => decide (b = (300 + t, BValue.killStorage (100 + t)))) = 1 := by
      refine countP_eq_one_of_nodup_mem _ _ (killStorSeg_nodup _)
        (300 + t, BValue.killStorage (100 + t)) ?_ (by simp) ?_
      · unfold killStorSeg
        exact List.mem_map.2 ⟨t, List.mem_range.2 ht, rfl⟩
      · intro b _ hpb
        exact of_decide_eq_true hpb
    rw [h0, h1]
  · intro i j hi hj hkt hks
    rw [hsp] at hi hj hkt hks
    rw [List.length_append] at hi hj
    have hjge : (rewriteGo (amapOf f) (simulate (recsOf f)) f.body 0 f.body).length ≤ j := by
      by_contra hlt
      push_neg at hlt
      have hmem := getD_append_mem_left _ (killStorSeg (simulate (recsOf f)))
        hlt ((0 : Nat), BValue.copy 0)
      have h5 := hnoks _ hmem
      rw [hks] at h5
      simp at h5
    have hilt : i < (rewriteGo (amapOf f) (simulate (recsOf f)) f.body 0 f.body).length := by
      by_contra hge
      push_neg at hge
      have hmem := getD_append_mem_right hge hi ((0 : Nat), BValue.copy 0)
      have h5 := (killStorSeg_shape _ _ hmem).2
      rw [hkt] at h5
      simp at h5
    omega

/-- Witness for C7 at the concrete `test_zero_reference` function. -/
theorem storage_release_total_witness :
    plannable zeroRefMain = true
    ∧ ((∀ t < (simulate (recsOf zeroRefMain)).toks.length,
        (planFunc zeroRefMain).body.countP
          (fun b => decide (b = (300 + t, BValue.killStorage (100 + t)))) = 1)
      ∧ (∃ main, (planFunc zeroRefMain).body
            = main ++ killStorSeg (simulate (recsOf zeroRefMain))
          ∧ ∀ b ∈ main, isKSB b.2 = false)
      ∧ (∀ i j, i < (planFunc zeroRefMain).body.length →
          j < (planFunc zeroRefMain).body.length →
          isKTB ((planFunc zeroRefMain).body.getD i (0, BValue.copy 0)).2 = true →
          isKSB ((planFunc zeroRefMain).body.getD j (0, BValue.copy 0)).2 = true →
          i < j)) :=
  ⟨by decide, storage_release_total zeroRefMain (by decide)⟩

/-!
Idempotence: a second run of the pass either sees a function it has already
rewritten (whose emitted memory instructions the gate rejects, so it is a
no-op) or a function the first run left unchanged.
-/

lemma transformB_sim0 (p v : Nat) (bv : BValue) : transformB sim0 p v bv = (v, bv) := by
  cases bv <;> rfl

lemma killsGo_sim0 (A : AMap) (fb : List (Nat × BValue)) (p : Nat) :
    ∀ (l : List (Nat × BValue)) (q : Nat), killsGo A sim0 fb p q l = [] := by
  intro l
  induction l with
  | nil => intro q; rfl
  | cons hd tl ih =>
      intro q
      obtain ⟨o, bv⟩ := hd
      simp only [killsGo]
      rw [ih (q + 1)]
      cases hident : identOf A q bv with
      | none => rfl
      | some a => rfl

lemma rewriteGo_sim0 (A : AMap) (fb : List (Nat × BValue)) :
    ∀ (body : List (Nat × BValue)) (p : Nat), rewriteGo A sim0 fb p body = body := by
  intro body
  induction body with
  | nil => intro p; rfl
  | cons hd tl ih =>
      intro p
      obtain ⟨v, bv⟩ := hd
      simp only [rewriteGo]
      rw [ih (p + 1), transformB_sim0]
      have hk : killsAt A sim0 fb p = [] := killsGo_sim0 A fb p fb 0
      rw [hk]
      rfl

lemma rewriteF_of_recs_nil (f : Func) (hr : recsOf f = []) : rewriteF f = f := by
  simp only [rewriteF]
  rw [hr]
  have hs : simulate ([] : List Rec) = sim0 := rfl
  rw [hs, rewriteGo_sim0]
  have hk : killStorSeg sim0 = [] := rfl
  rw [hk, List.append_nil]

lemma step_toks_le (st : SimSt) (r : Rec) :
    st.toks.length ≤ (step st r).toks.length := by
  cases h : pickTok st r with
  | some i =>
      simp only [step, h, List.length_set]
      exact Nat.le_refl _
  | none =>
      simp only [step, h, List.length_append, List.length_cons, List.length_nil]
      omega

lemma foldl_step_toks_le : ∀ (l : List Rec) (st : SimSt),
    st.toks.length ≤ (l.foldl step st).toks.length := by
  intro l
  induction l with
  | nil => intro st; exact Nat.le_refl _
  | cons r rest ih =>
      intro st
      simp only [List.foldl_cons]
      exact Nat.le_trans (step_toks_le st r) (ih (step st r))

lemma simulate_cons_toks_pos (r : Rec) (rs : List Rec) :
    1 ≤ (simulate (r :: rs)).toks.length := by
  unfold simulate
  simp only [List.foldl_cons]
  refine Nat.le_trans ?_ (foldl_step_toks_le rs (step sim0 r))
  exact Nat.le_refl 1

lemma planFunc_idem (f : Func) : planFunc (planFunc f) = planFunc f := by
  by_cases h : plannable f = true
  · cases hr : recsOf f with
    | nil =>
        have h1 : rewriteF f = f := rewriteF_of_recs_nil f hr
        have h2 : planFunc f = f := by simp [planFunc, h, h1]
        rw [h2]
        exact h2
    | cons r rs =>
        have h1 : planFunc f = rewriteF f := by simp [planFunc, h]
        have hmem : ((300 : Nat) + 0, BValue.killStorage (100 + 0)) ∈ (rewriteF f).body := by
          have hlen : 1 ≤ (simulate (recsOf f)).toks.length := by
            rw [hr]
            exact simulate_cons_toks_pos r rs
          have hseg : ((300 : Nat) + 0, BValue.killStorage (100 + 0))
              ∈ killStorSeg (simulate (recsOf f)) := by
            unfold killStorSeg
            exact List.mem_map.2 ⟨0, List.mem_range.2 hlen, rfl⟩
          simp only [rewriteF]
          exact List.mem_append_right _ hseg
        have h3 : plannable (rewriteF f) = false :=
          gateGo_eq_false_of_mem _ 0 [] _ hmem rfl
        rw [h1]
        simp [planFunc, h3]
  · have h2 : planFunc f = f := by simp [planFunc, h]
    rw [h2, h2]

/-- C9: the pass is idempotent — applying it twice to any module yields the
same module as applying it once. -/
theorem plan_idempotent (m : List Func) : planModule (planModule m) = planModule m := by
  unfold planModule
  rw [List.map_map]
  exact List.map_congr_left (fun f _ => planFunc_idem f)

/-!
Return-alias exclusion, stated generally: in any plannable function with
distinct binder variables, an allocation whose identity reaches the return
value gets no token, keeps its original generic allocation binding, and
receives no tensor-release marker, while every other allocation is planned.
-/

lemma recsGo_not_excl (A : AMap) (e : List Nat) (fb : List (Nat × BValue)) :
    ∀ (body : List (Nat × BValue)) (p : Nat) (r : Rec),
      r ∈ recsGo A e fb p body → r.pos ∉ e := by
  intro body
  induction body with
  | nil => intro p r h; exact absurd h (List.not_mem_nil r)
  | cons hd tl ih =>
      intro p r h
      obtain ⟨v, bv⟩ := hd
      rcases List.mem_append.1 h with h1 | h2
      · cases bv with
        | alloc shape dt dev sc =>
            simp only [recHead] at h1
            by_cases hc : (shape.all Dim.isConst && !e.contains p) = true
            · rw [if_pos hc] at h1
              rw [List.mem_singleton.1 h1]
              rw [Bool.and_eq_true] at hc
              have h3 := hc.2
              simp at h3
              exact h3
            · rw [if_neg hc] at h1
              exact absurd h1 (List.not_mem_nil r)
        | kernelCall k ins outs => exact absurd h1 (List.not_mem_nil r)
        | copy s => exact absurd h1 (List.not_mem_nil r)
        | reshape s sh => exact absurd h1 (List.not_mem_nil r)
        | tupleBuild fs => exact absurd h1 (List.not_mem_nil r)
        | tupleProject t i => exact absurd h1 (List.not_mem_nil r)
        | branch c => exact absurd h1 (List.not_mem_nil r)
        | opaqueCall args => exact absurd h1 (List.not_mem_nil r)
        | allocStorage s dt dev sc => exact absurd h1 (List.not_mem_nil r)
        | allocTensor s o sh dt => exact absurd h1 (List.not_mem_nil r)
        | killTensor t => exact absurd h1 (List.not_mem_nil r)
        | killStorage s => exact absurd h1 (List.not_mem_nil r)
      · exact ih (p + 1) r h2

lemma recsGo_complete (A : AMap) (e : List Nat) (fb : List (Nat × BValue)) :
    ∀ (body : List (Nat × BValue)) (p0 i v : Nat) (sh : List Dim) (dt : DType)
      (dev sc : Nat),
      body[i]? = some (v, BValue.alloc sh dt dev sc) →
      sh.all Dim.isConst = true → e.contains (p0 + i) = false →
      ∃ r ∈ recsGo A e fb p0 body, r.pos = p0 + i := by
  intro body
  induction body with
  | nil => intro p0 i v sh dt dev sc h _ _; simp at h
  | cons hd tl ih =>
      intro p0 i v sh dt dev sc h hsh hex
      cases i with
      | zero =>
          rw [List.getElem?_cons_zero] at h
          have hhd : hd = (v, BValue.alloc sh dt dev sc) := Option.some_inj.1 h
          subst hhd
          rw [Nat.add_zero] at hex ⊢
          refine ⟨⟨p0, v, bytesOf sh dt, ⟨dt, dev, sc⟩, lastUseOf A fb p0⟩, ?_, rfl⟩
          simp only [recsGo]
          apply List.mem_append_left
          simp only [recHead]
          rw [if_pos]
          · exact List.mem_singleton.2 rfl
          · rw [hsh, hex]
            rfl
      | succ i =>
          rw [List.getElem?_cons_succ] at h
          have harith : p0 + (i + 1) = (p0 + 1) + i := by omega
          rw [harith] at hex ⊢
          obtain ⟨v0, bv0⟩ := hd
          simp only [recsGo]
          obtain ⟨r, hr, hrp⟩ := ih (p0 + 1) i v sh dt dev sc h hsh hex
          exact ⟨r, List.mem_append_right _ hr, hrp⟩

lemma step_asg_cases (st : SimSt) (r : Rec) :
    ∀ e ∈ (step st r).asg, e ∈ st.asg ∨ e.1 = r.pos := by
  intro e he
  cases h : pickTok st r with
  | some i =>
      simp only [step, h] at he
      rcases List.mem_append.1 he with h1 | h2
      · exact Or.inl h1
      · rw [List.mem_singleton.1 h2]
        exact Or.inr rfl
  | none =>
      simp only [step, h] at he
      rcases List.mem_append.1 he with h1 | h2
      · exact Or.inl h1
      · rw [List.mem_singleton.1 h2]
        exact Or.inr rfl

lemma step_asg_sub (st : SimSt) (r : Rec) : ∀ e ∈ st.asg, e ∈ (step st r).asg := by
  intro e he
  cases h : pickTok st r with
  | some i =>
      simp only [step, h]
      exact List.mem_append_left _ he
  | none =>
      simp only [step, h]
      exact List.mem_append_left _ he

lemma foldl_asg_sub : ∀ (l : List Rec) (st : SimSt) (e : Nat × Nat),
    e ∈ st.asg → e ∈ (l.foldl step st).asg := by
  intro l
  induction l with
  | nil => intro st e he; exact he
  | cons r rest ih =>
      intro st e he
      simp only [List.foldl_cons]
      exact ih (step st r) e (step_asg_sub st r e he)

lemma foldl_asg_cases : ∀ (l : List Rec) (st : SimSt) (e : Nat × Nat),
    e ∈ (l.foldl step st).asg → e ∈ st.asg ∨ ∃ r ∈ l, e.1 = r.pos := by
  intro l
  induction l with
  | nil => intro st e he; exact Or.inl he
  | cons r rest ih =>
      intro st e he
      simp only [List.foldl_cons] at he
      rcases ih (step st r) e he with h1 | h2
      · rcases step_asg_cases st r e h1 with h2 | h2
        · exact Or.inl h2
        · exact Or.inr ⟨r, List.mem_cons_self _ _, h2⟩
      · obtain ⟨r2, hr2, hp⟩ := h2
        exact Or.inr ⟨r2, List.mem_cons_of_mem _ hr2, hp⟩

lemma foldl_asg_of_mem : ∀ (l : List Rec) (st : SimSt) (r : Rec), r ∈ l →
    ∃ t, (r.pos, t) ∈ (l.foldl step st).asg := by
  intro l
  induction l with
  | nil => intro st r hr; exact absurd hr (List.not_mem_nil r)
  | cons r0 rest ih =>
      intro st r hr
      simp only [List.foldl_cons]
      rcases List.mem_cons.1 hr with h1 | h2
      · subst h1
        cases h : pickTok st r with
        | some i =>
            refine ⟨i, foldl_asg_sub rest (step st r) _ ?_⟩
            simp only [step, h]
            exact List.mem_append_right _ (List.mem_singleton.2 rfl)
        | none =>
            refine ⟨st.toks.length, foldl_asg_sub rest (step st r) _ ?_⟩
            simp only [step, h]
            exact List.mem_append_right _ (List.mem_singleton.2 rfl)
      · exact ih (step st r0) r h2

lemma lookAsg_eq_none (asg : List (Nat × Nat)) (p : Nat)
    (h : ∀ e ∈ asg, e.1 ≠ p) : lookAsg asg p = none := by
  have hf : asg.find? (fun e => e.1 == p) = none := by
    rw [List.find?_eq_none]
    intro x hx
    simp
    exact h x hx
  unfold lookAsg
  rw [hf]
  rfl

lemma lookAsg_mem_isSome (asg : List (Nat × Nat)) (p : Nat) (e : Nat × Nat)
    (he : e ∈ asg) (hk : e.1 = p) : ∃ t, lookAsg asg p = some t := by
  unfold lookAsg
  cases hf : asg.find? (fun x => x.1 == p) with
  | none =>
      exfalso
      have h2 := List.find?_eq_none.1 hf e he
      simp [hk] at h2
  | some x => exact ⟨x.2, rfl⟩

lemma mem_killsGo_src (A : AMap) (sim : SimSt) (fb : List (Nat × BValue)) (p : Nat) :
    ∀ (l : List (Nat × BValue)) (q0 : Nat) (b : Nat × BValue),
      b ∈ killsGo A sim fb p q0 l →
      ∃ i o2 bv2 a, l[i]? = some (o2, bv2)
        ∧ b.2 = BValue.killTensor o2
        ∧ identOf A (q0 + i) bv2 = some a
        ∧ (lookAsg sim.asg a).isSome = true := by
  intro l
  induction l with
  | nil => intro q0 b h; exact absurd h (List.not_mem_nil b)
  | cons hd tl ih =>
      intro q0 b h
      obtain ⟨o, bv⟩ := hd
      simp only [killsGo] at h
      rcases List.mem_append.1 h with h1 | h2
      · cases hident : identOf A q0 bv with
        | none => rw [hident] at h1; exact absurd h1 (List.not_mem_nil b)
        | some a =>
            rw [hident] at h1
            have h3 : b ∈ (if ((lookAsg sim.asg a).isSome && (lastUseOf A fb a == p)
                && hasRead A fb a) = true then [(200 + q0, BValue.killTensor o)]
                else ([] : List (Nat × BValue))) := h1
            by_cases hc : ((lookAsg sim.asg a).isSome && (lastUseOf A fb a == p)
                && hasRead A fb a) = true
            · rw [if_pos hc] at h3
              refine ⟨0, o, bv, a, List.getElem?_cons_zero, ?_, ?_, ?_⟩
              · rw [List.mem_singleton.1 h3]
              · rw [Nat.add_zero]
                exact hident
              · rw [Bool.and_eq_true, Bool.and_eq_true] at hc
                exact hc.1.1
            · rw [if_neg hc] at h3
              exact absurd h3 (List.not_mem_nil b)
      · obtain ⟨i, o2, bv2, a, hget, hb2, hident, hsome⟩ := ih (q0 + 1) b h2
        refine ⟨i + 1, o2, bv2, a, ?_, hb2, ?_, hsome⟩
        · rw [List.getElem?_cons_succ]
          exact hget
        · have harith : q0 + (i + 1) = (q0 + 1) + i := by omega
          rw [harith]
          exact hident

lemma mem_rewriteGo_kills (A : AMap) (sim : SimSt) (fb : List (Nat × BValue)) :
    ∀ (body : List (Nat × BValue)) (p : Nat) (b : Nat × BValue),
      b ∈ rewriteGo A sim fb p body →
      (∃ p2, b ∈ poolBindsAt sim p2)
      ∨ (∃ p2 v bv, (v, bv) ∈ body ∧ b = transformB sim p2 v bv)
      ∨ (∃ p2, b ∈ killsAt A sim fb p2) := by
  intro body
  induction body with
  | nil => intro p b h; exact absurd h (List.not_mem_nil b)
  | cons hd tl ih =>
      intro p b h
      obtain ⟨v, bv⟩ := hd
      simp only [rewriteGo] at h
      rcases List.mem_append.1 h with h1 | h2
      · exact Or.inl ⟨p, h1⟩
      · rcases List.mem_cons.1 h2 with h3 | h4
        · exact Or.inr (Or.inl ⟨p, v, bv, List.mem_cons_self _ _, h3⟩)
        · rcases List.mem_append.1 h4 with h5 | h6
          · exact Or.inr (Or.inr ⟨p, h5⟩)
          · rcases ih (p + 1) b h6 with ha | hb | hc
            · exact Or.inl ha
            · obtain ⟨p2, v2, bv2, hm, he⟩ := hb
              exact Or.inr (Or.inl ⟨p2, v2, bv2, List.mem_cons_of_mem _ hm, he⟩)
            · exact Or.inr (Or.inr hc)

lemma transformB_mem_rewriteGo (A : AMap) (sim : SimSt) (fb : List (Nat × BValue)) :
    ∀ (body : List (Nat × BValue)) (p0 i v : Nat) (bv : BValue),
      body[i]? = some (v, bv) →
      transformB sim (p0 + i) v bv ∈ rewriteGo A sim fb p0 body := by
  intro body
  induction body with
  | nil => intro p0 i v bv h; simp at h
  | cons hd tl ih =>
      intro p0 i v bv h
      cases i with
      | zero =>
          rw [List.getElem?_cons_zero] at h
          have hhd : hd = (v, bv) := Option.some_inj.1 h
          subst hhd
          rw [Nat.add_zero]
          simp only [rewriteGo]
          exact List.mem_append_right _ (List.mem_cons_self _ _)
      | succ i =>
          rw [List.getElem?_cons_succ] at h
          have harith : p0 + (i + 1) = (p0 + 1) + i := by omega
          rw [harith]
          obtain ⟨v0, bv0⟩ := hd
          simp only [rewriteGo]
          refine List.mem_append_right _ (List.mem_cons_of_mem _
            (List.mem_append_right _ ?_))
          exact ih (p0 + 1) i v bv h

/-- C10: in any plannable function with distinct binder variables, an
allocation whose tensor identity aliases the function's return value is
excluded from planning — it is assigned no storage token, its original generic
allocation binding is copied through unchanged, and no tensor-release marker
naming its variable is emitted — while every allocation not aliasing the
return is planned normally: it is assigned a storage token and replaced by a
materialize-at-offset-0 binding on that token. -/
theorem return_alias_excluded (f : Func) (hpl : plannable f = true)
    (hssa : (f.body.map Prod.fst).Nodup) :
    ∀ p v shape dt dev sc, f.body[p]? = some (v, BValue.alloc shape dt dev sc) →
      (p ∈ exclSet f →
        lookAsg (simulate (recsOf f)).asg p = none
        ∧ (v, BValue.alloc shape dt dev sc) ∈ (planFunc f).body
        ∧ ∀ b ∈ (planFunc f).body, b.2 ≠ BValue.killTensor v)
      ∧ (p ∉ exclSet f →
        ∃ t, lookAsg (simulate (recsOf f)).asg p = some t
          ∧ (v, BValue.allocTensor (100 + t) 0 shape dt) ∈ (planFunc f).body) := by
  intro p v shape dt dev sc hbp
  obtain ⟨hplen, hbody⟩ := List.getElem?_eq_some.1 hbp
  constructor
  · intro hex
    have hnone : lookAsg (simulate (recsOf f)).asg p = none := by
      apply lookAsg_eq_none
      intro e he hep
      rcases foldl_asg_cases (recsOf f) sim0 e he with h0 | h0
      · exact absurd h0 (List.not_mem_nil e)
      · obtain ⟨r, hr, hk⟩ := h0
        have hnex := recsGo_not_excl (amapOf f) (exclSet f) f.body f.body 0 r hr
        rw [hk] at hep
        rw [hep] at hnex
        exact hnex hex
    refine ⟨hnone, ?_, ?_⟩
    · have hmem := transformB_mem_rewriteGo (amapOf f) (simulate (recsOf f)) f.body
        f.body 0 p v (BValue.alloc shape dt dev sc) hbp
      rw [Nat.zero_add] at hmem
      have ht : transformB (simulate (recsOf f)) p v (BValue.alloc shape dt dev sc)
          = (v, BValue.alloc shape dt dev sc) := by
        unfold transformB
        rw [hnone]
      rw [ht] at hmem
      rw [planFunc_body_eq f hpl]
      exact List.mem_append_left _ hmem
    · intro b hb hkill
      rw [planFunc_body_eq f hpl] at hb
      rcases List.mem_append.1 hb with h1 | h2
      · rcases mem_rewriteGo_kills _ _ _ f.body 0 b h1 with ha | hbc | hc
        · obtain ⟨p2, hp2⟩ := ha
          obtain ⟨t, _, he⟩ := mem_poolBindsAt _ p2 b hp2
          rw [he] at hkill
          simp at hkill
        · obtain ⟨p2, v2, bv2, hm, he⟩ := hbc
          rcases transformB_snd (simulate (recsOf f)) p2 v2 bv2 with hs | hs
          · have hbad := plannable_body_not_bad f hpl (v2, bv2) hm
            rw [he] at hkill
            rw [hs] at hkill
            rw [hkill] at hbad
            simp [hardBad] at hbad
          · rw [he] at hkill
            rw [hkill] at hs
            simp [isATB] at hs
        · obtain ⟨p2, hp2⟩ := hc
          obtain ⟨i, o2, bv2, a, hget, hb2, hident, hsome⟩ :=
            mem_killsGo_src (amapOf f) (simulate (recsOf f)) f.body p2 f.body 0 b hp2
          rw [hb2] at hkill
          have ho2 : o2 = v := by simpa using hkill
          obtain ⟨hilen, hival⟩ := List.getElem?_eq_some.1 hget
          have hilen2 : i < (f.body.map Prod.fst).length := by
            rw [List.length_map]
            exact hilen
          have hplen2 : p < (f.body.map Prod.fst).length := by
            rw [List.length_map]
            exact hplen
          have h4 : (f.body.map Prod.fst)[i] = (f.body.map Prod.fst)[p] := by
            rw [List.getElem_map, List.getElem_map, hival, hbody]
            show o2 = v
            exact ho2
          have hieq : i = p := (List.Nodup.getElem_inj_iff hssa).1 h4
          subst hieq
          rw [hbody] at hival
          have hbv2 : bv2 = BValue.alloc shape dt dev sc := by
            have h5 := congrArg Prod.snd hival
            simpa using h5.symm
          rw [hbv2] at hident
          rw [Nat.zero_add] at hident
          have ha2 : a = i := by
            simp [identOf] at hident
            exact hident.symm
          rw [ha2] at hsome
          rw [hnone] at hsome
          simp at hsome
      · obtain ⟨t, _, he⟩ := mem_killStorSeg _ b h2
        rw [he] at hkill
        simp at hkill
  · intro hnex
    have hmem0 : (v, BValue.alloc shape dt dev sc) ∈ f.body := by
      rw [← hbody]
      exact List.getElem_mem hplen
    have hshape : shape.all Dim.isConst = true := by
      have hbad := plannable_body_not_bad f hpl (v, BValue.alloc shape dt dev sc) hmem0
      simp [hardBad] at hbad
      simpa using hbad
    have hcont : (exclSet f).contains p = false := by
      simp
      exact hnex
    obtain ⟨r, hr, hrp⟩ := recsGo_complete (amapOf f) (exclSet f) f.body f.body 0 p v
      shape dt dev sc hbp hshape (by rw [Nat.zero_add]; exact hcont)
    rw [Nat.zero_add] at hrp
    obtain ⟨t, hasg⟩ := foldl_asg_of_mem (recsOf f) sim0 r hr
    rw [hrp] at hasg
    obtain ⟨t2, hlook⟩ := lookAsg_mem_isSome (simulate (recsOf f)).asg p (p, t) hasg rfl
    refine ⟨t2, hlook, ?_⟩
    have hmem := transformB_mem_rewriteGo (amapOf f) (simulate (recsOf f)) f.body
      f.body 0 p v (BValue.alloc shape dt dev sc) hbp
    rw [Nat.zero_add] at hmem
    have ht : transformB (simulate (recsOf f)) p v (BValue.alloc shape dt dev sc)
        = (v, BValue.allocTensor (100 + t2) 0 shape dt) := by
      unfold transformB
      rw [hlook]
    rw [ht] at hmem
    rw [planFunc_body_eq f hpl]
    exact List.mem_append_left _ hmem

/-- Witness for C10 at the concrete `test_basic` function, whose fifth
allocation (position 13, variable 14) aliases the return while the first
(position 0, variable 1) does not. -/
theorem return_alias_excluded_witness :
    (plannable basicMain = true ∧ (basicMain.body.map Prod.fst).Nodup
      ∧ (13 : Nat) ∈ exclSet basicMain ∧ (0 : Nat) ∉ exclSet basicMain)
    ∧ (∀ p v shape dt dev sc,
        basicMain.body[p]? = some (v, BValue.alloc shape dt dev sc) →
        (p ∈ exclSet basicMain →
          lookAsg (simulate (recsOf basicMain)).asg p = none
          ∧ (v, BValue.alloc shape dt dev sc) ∈ (planFunc basicMain).body
          ∧ ∀ b ∈ (planFunc basicMain).body, b.2 ≠ BValue.killTensor v)
        ∧ (p ∉ exclSet basicMain →
          ∃ t, lookAsg (simulate (recsOf basicMain)).asg p = some t
            ∧ (v, BValue.allocTensor (100 + t) 0 shape dt)
                ∈ (planFunc basicMain).body)) :=
  ⟨⟨by decide, by decide, by decide, by decide⟩,
   return_alias_excluded basicMain (by decide) (by decide)⟩
